import Mathlib

/-!
Verification of the `clipmgr` clipboard-manager core.

Shallow embedding of the clip store of `clipmgr.py` (the `ClipboardManager`
class and its helper functions) together with proofs of the specification's
claims about it.

Conventions used throughout the embedding:
* Python `None` for optional string fields is `Option.none`; Python string
  truthiness (`if clip.path:`) is `truthy` below (present and non-empty).
* The `type` field of a clip is a `String`; the Python value `None` (which is
  only ever observed through `not clip.type` and `== "text"/"image"`
  comparisons) is encoded as `""`, which has the same observable behaviour.
* Timestamps produced by `datetime.now().isoformat()` are threaded explicitly
  as a `now : String` argument into the operations that stamp clips.
-/

namespace ClipMgr

/-- `MAX_CLIPS = 50` from `clipmgr.py`: capacity of text entries in history. -/
def MAX_CLIPS : Nat := 50

/-- `MAX_IMAGE_CLIPS = 20` from `clipmgr.py`: capacity of image entries in history. -/
def MAX_IMAGE_CLIPS : Nat := 20

/-- The `Clip` dataclass of `clipmgr.py`: a clipboard entry, either text or
image.  Fields mirror the Python dataclass (`type`, `content`, `path`, `fmt`,
`timestamp`). -/
structure Clip where
  type : String
  content : Option String := none
  path : Option String := none
  fmt : Option String := none
  timestamp : String := ""
deriving DecidableEq, Repr

/-- Python truthiness of an optional string field (`if clip.path:`):
present and non-empty. -/
def truthy : Option String → Bool
  | none => false
  | some s => s ≠ ""

/-- The in-memory state of `ClipboardManager`: the `history` and `pinned`
lists (most recent first for `history`). -/
structure Store where
  history : List Clip
  pinned : List Clip
deriving DecidableEq, Repr

/-- One step of `ClipboardManager._is_duplicate_in_list`'s loop: whether
`other` counts as a duplicate of `clip`.  Text clips compare by `content`,
image clips by `path` (and only when both paths are truthy). -/
def isDup (clip other : Clip) : Bool :=
  if clip.type ≠ other.type then false
  else if clip.type = "text" ∧ clip.content = other.content then true
  else if clip.type = "image" ∧ truthy clip.path ∧ truthy other.path ∧
      clip.path = other.path then true
  else false

/-- `ClipboardManager._is_duplicate_in_list`: `clip` is a duplicate of some
element of `clip_list`. -/
def isDuplicateInList (clip : Clip) (clip_list : List Clip) : Bool :=
  clip_list.any (isDup clip)

/-- The timestamp refresh `clip.timestamp = datetime.now().isoformat()` in
`add_clip`, with the clock value threaded explicitly. -/
def stamp (now : String) (clip : Clip) : Clip :=
  { clip with timestamp := now }

/-- `ClipboardManager.add_clip`: skip when `clip.type` is falsy, refresh the
timestamp, skip when the clip duplicates a pinned entry, otherwise drop
duplicates from `history` and prepend. -/
def addClip (now : String) (clip : Clip) (s : Store) : Store :=
  if clip.type = "" then s
  else if isDuplicateInList (stamp now clip) s.pinned then s
  else
    { s with
      history := stamp now clip ::
        s.history.filter (fun c => ! isDuplicateInList (stamp now clip) [c]) }

/-- The history-trimming loop shared by `ClipboardManager.save` and
`ClipboardManager.save_history_only`: keep the first `MAX_CLIPS` text entries
and the first `MAX_IMAGE_CLIPS` image entries (clips of any other type are
dropped). -/
def trimHistoryAux : List Clip → Nat → Nat → List Clip
  | [], _, _ => []
  | c :: rest, text_count, image_count =>
    if c.type = "text" ∧ text_count < MAX_CLIPS then
      c :: trimHistoryAux rest (text_count + 1) image_count
    else if c.type = "image" ∧ image_count < MAX_IMAGE_CLIPS then
      c :: trimHistoryAux rest text_count (image_count + 1)
    else trimHistoryAux rest text_count image_count

/-- The trimming loop started with both counters at zero, as in the source. -/
def trimHistory (l : List Clip) : List Clip :=
  trimHistoryAux l 0 0

/-- The on-disk state: the parsed contents of `history.json` and
`pinned.json` (files are abstracted to the clip lists they encode). -/
structure Disk where
  historyDoc : List Clip
  pinnedDoc : List Clip
deriving DecidableEq, Repr

/-- `ClipboardManager.save_history_only`: trim `self.history` in memory and
write only the history document.  Returns the updated store and disk. -/
def saveHistoryOnly (s : Store) (d : Disk) : Store × Disk :=
  let trimmed := trimHistory s.history
  (⟨trimmed, s.pinned⟩, ⟨trimmed, d.pinnedDoc⟩)

/-- `ClipboardManager.save`: trim `self.history` in memory and write both
documents. -/
def saveAll (s : Store) (_d : Disk) : Store × Disk :=
  let trimmed := trimHistory s.history
  (⟨trimmed, s.pinned⟩, ⟨trimmed, s.pinned⟩)

/-- The daemon's add step: `add_clip` followed by the trim performed by
`save_history_only` (in `daemon_loop` every accepted clip is integrated by
`add_clip` and then persisted through `save_history_only` before the next
poll). -/
def daemonAdd (now : String) (clip : Clip) (s : Store) : Store :=
  let s := addClip now clip s
  { s with history := trimHistory s.history }

/-- The unpin branch of `ClipboardManager.pin_menu` (selected label in the
pinned section): remove the clip from `pinned`, re-insert it at the front of
`history` unless already present there, then `save()` (which trims history). -/
def unpinClip (clip : Clip) (s : Store) : Store :=
  let pinned := s.pinned.filter (fun p => ! isDuplicateInList clip [p])
  let history :=
    if isDuplicateInList clip s.history then s.history else clip :: s.history
  ⟨trimHistory history, pinned⟩

/-- The pin branch of `ClipboardManager.pin_menu` (selected label in the
history section): remove the clip from `history`, append it to `pinned`
unless already present there, then `save()` (which trims history). -/
def pinClip (clip : Clip) (s : Store) : Store :=
  let history := s.history.filter (fun h => ! isDuplicateInList clip [h])
  let pinned :=
    if isDuplicateInList clip s.pinned then s.pinned else s.pinned ++ [clip]
  ⟨trimHistory history, pinned⟩

/-- The pin/unpin action of `ClipboardManager.pin_menu` on a selected clip.
The source dispatches on whether the selected label came from the pinned
section; for a clip drawn from the store this is equivalent to testing
membership (by duplicate identity) in `pinned`, which is how we model it. -/
def togglePin (clip : Clip) (s : Store) : Store :=
  if isDuplicateInList clip s.pinned then unpinClip clip s else pinClip clip s

/-- `ClipboardManager.clear_history`: empty `history`, keep `pinned`
(`save()` then trims the empty history, a no-op). -/
def clearHistory (s : Store) : Store :=
  ⟨[], s.pinned⟩

/-! Section: Specification-side notions: identity, well-formedness, invariant -/

/-- The dedup identity of the spec: two clips are the same identity when they
are both text with equal `content`, or both image with equal `path`. -/
def sameIdentity (a b : Clip) : Prop :=
  (a.type = "text" ∧ b.type = "text" ∧ a.content = b.content) ∨
  (a.type = "image" ∧ b.type = "image" ∧ a.path = b.path)

instance : ∀ a b : Clip, Decidable (sameIdentity a b) := fun a b => by
  unfold sameIdentity; exact inferInstance

/-- Well-formedness of a clip, following the spec's data model: the kind is
Text or Image, and an image clip carries a truthy (present, non-empty) path. -/
def Clip.wf (c : Clip) : Prop :=
  (c.type = "text" ∨ c.type = "image") ∧ (c.type = "image" → truthy c.path = true)

instance : ∀ c : Clip, Decidable c.wf := fun c => by
  unfold Clip.wf; exact inferInstance

/-- Well-formedness of a store: every clip in it is well-formed. -/
def WFStore (s : Store) : Prop :=
  (∀ c ∈ s.history, c.wf) ∧ (∀ c ∈ s.pinned, c.wf)

/-- The ClipStore invariant of the spec: no identity occurs in both `history`
and `pinned`, and neither list contains two entries of the same identity. -/
def Inv (s : Store) : Prop :=
  (∀ h ∈ s.history, ∀ p ∈ s.pinned, ¬ sameIdentity h p) ∧
  s.history.Pairwise (fun a b => ¬ sameIdentity a b) ∧
  s.pinned.Pairwise (fun a b => ¬ sameIdentity a b)

/-- Some entry of `s.history` has the identity of `c`. -/
def identInHistory (c : Clip) (s : Store) : Prop :=
  ∃ h ∈ s.history, sameIdentity c h

/-- Some entry of `s.pinned` has the identity of `c`. -/
def identInPinned (c : Clip) (s : Store) : Prop :=
  ∃ p ∈ s.pinned, sameIdentity c p

/-! Section: Basic lemmas about identity and the duplicate test -/

theorem sameIdentity_symm {a b : Clip} (h : sameIdentity a b) : sameIdentity b a := by
  rcases h with ⟨h1, h2, h3⟩ | ⟨h1, h2, h3⟩
  · exact Or.inl ⟨h2, h1, h3.symm⟩
  · exact Or.inr ⟨h2, h1, h3.symm⟩

theorem sameIdentity_self {c : Clip} (hc : c.wf) : sameIdentity c c := by
  rcases hc.1 with h | h
  · exact Or.inl ⟨h, h, rfl⟩
  · exact Or.inr ⟨h, h, rfl⟩

/-- Timestamp refreshing does not change identity facts. -/
theorem sameIdentity_setTimestamp (a b : Clip) (now : String) :
    sameIdentity { a with timestamp := now } b ↔ sameIdentity a b := Iff.rfl

/-- On well-formed clips, the source's duplicate test coincides with the
spec's identity relation. -/
theorem isDup_iff {a b : Clip} (ha : a.wf) (hb : b.wf) :
    isDup a b = true ↔ sameIdentity a b := by
  unfold isDup sameIdentity
  rcases ha.1 with hta | hta <;> rcases hb.1 with htb | htb
  · simp [hta, htb]
  · simp [hta, htb]
  · simp [hta, htb]
  · have hpa := ha.2 hta
    have hpb := hb.2 htb
    simp [hta, htb, hpa, hpb]

theorem isDup_eq_false {a b : Clip} (ha : a.wf) (hb : b.wf)
    (h : ¬ sameIdentity a b) : isDup a b = false := by
  rcases hd : isDup a b with _ | _
  · rfl
  · exact absurd ((isDup_iff ha hb).mp hd) h

theorem isDuplicateInList_iff {a : Clip} {l : List Clip} (ha : a.wf)
    (hl : ∀ x ∈ l, x.wf) :
    isDuplicateInList a l = true ↔ ∃ x ∈ l, sameIdentity a x := by
  unfold isDuplicateInList
  rw [List.any_eq_true]
  constructor
  · rintro ⟨x, hx, hd⟩
    exact ⟨x, hx, (isDup_iff ha (hl x hx)).mp hd⟩
  · rintro ⟨x, hx, hid⟩
    exact ⟨x, hx, (isDup_iff ha (hl x hx)).mpr hid⟩

theorem isDuplicateInList_eq_false {a : Clip} {l : List Clip} (ha : a.wf)
    (hl : ∀ x ∈ l, x.wf) (h : ∀ x ∈ l, ¬ sameIdentity a x) :
    isDuplicateInList a l = false := by
  rcases hd : isDuplicateInList a l with _ | _
  · rfl
  · obtain ⟨x, hx, hid⟩ := (isDuplicateInList_iff ha hl).mp hd
    exact absurd hid (h x hx)

theorem isDuplicateInList_singleton (a c : Clip) :
    isDuplicateInList a [c] = isDup a c := by
  simp [isDuplicateInList, List.any]

/-! Section: Lemmas about the trim loop -/

theorem trimHistoryAux_sublist : ∀ (l : List Clip) (t i : Nat),
    (trimHistoryAux l t i).Sublist l := by
  intro l
  induction l with
  | nil => intro t i; simp [trimHistoryAux]
  | cons c rest ih =>
    intro t i
    unfold trimHistoryAux
    by_cases h1 : c.type = "text" ∧ t < MAX_CLIPS
    · simpa [h1] using (ih (t + 1) i).cons₂ c
    · by_cases h2 : c.type = "image" ∧ i < MAX_IMAGE_CLIPS
      · simpa [h1, h2] using (ih t (i + 1)).cons₂ c
      · simpa [h1, h2] using (ih t i).cons c

theorem trimHistory_sublist (l : List Clip) : (trimHistory l).Sublist l :=
  trimHistoryAux_sublist l 0 0

theorem mem_of_mem_trimHistory {x : Clip} {l : List Clip}
    (h : x ∈ trimHistory l) : x ∈ l :=
  (trimHistory_sublist l).mem h

/-- A well-formed clip placed at the front of the history survives trimming
at the front. -/
theorem trimHistory_cons_head {c : Clip} (l : List Clip) (hc : c.wf) :
    ∃ rest, trimHistory (c :: l) = c :: rest := by
  unfold trimHistory trimHistoryAux
  rcases hc.1 with h | h
  · refine ⟨trimHistoryAux l 1 0, ?_⟩
    rw [if_pos ⟨h, by decide⟩]
  · refine ⟨trimHistoryAux l 0 1, ?_⟩
    have h1 : ¬ (c.type = "text" ∧ 0 < MAX_CLIPS) := by
      intro hx; rw [h] at hx; exact absurd hx.1 (by decide)
    rw [if_neg h1, if_pos ⟨h, by decide⟩]

/-- Per-kind characterisation of the trim loop: the text entries of the
output are the first `MAX_CLIPS - t` text entries of the input, in order. -/
theorem trimHistoryAux_filter_text : ∀ (l : List Clip) (t i : Nat),
    (trimHistoryAux l t i).filter (fun c => c.type = "text") =
      ((l.filter (fun c => c.type = "text")).take (MAX_CLIPS - t)) := by
  intro l
  induction l with
  | nil => intro t i; simp [trimHistoryAux]
  | cons c rest ih =>
    intro t i
    unfold trimHistoryAux
    by_cases h1 : c.type = "text" ∧ t < MAX_CLIPS
    · rw [if_pos h1]
      have hsub : MAX_CLIPS - t = (MAX_CLIPS - (t + 1)) + 1 := by omega
      simp [List.filter_cons, h1.1, ih, hsub]
    · rw [if_neg h1]
      by_cases h2 : c.type = "image" ∧ i < MAX_IMAGE_CLIPS
      · rw [if_pos h2]
        have hct : ¬ (c.type = "text") := by
          intro hx; rw [hx] at h2; exact absurd h2.1 (by decide)
        simp [List.filter_cons, hct, ih]
      · rw [if_neg h2]
        rcases Decidable.em (c.type = "text") with hct | hct
        · have ht : ¬ t < MAX_CLIPS := fun hx => h1 ⟨hct, hx⟩
          have hsub : MAX_CLIPS - t = 0 := by omega
          simp [List.filter_cons, hct, ih, hsub]
        · simp [List.filter_cons, hct, ih]

/-- Per-kind characterisation of the trim loop: the image entries of the
output are the first `MAX_IMAGE_CLIPS - i` image entries of the input. -/
theorem trimHistoryAux_filter_image : ∀ (l : List Clip) (t i : Nat),
    (trimHistoryAux l t i).filter (fun c => c.type = "image") =
      ((l.filter (fun c => c.type = "image")).take (MAX_IMAGE_CLIPS - i)) := by
  intro l
  induction l with
  | nil => intro t i; simp [trimHistoryAux]
  | cons c rest ih =>
    intro t i
    unfold trimHistoryAux
    by_cases h1 : c.type = "text" ∧ t < MAX_CLIPS
    · rw [if_pos h1]
      have hci : ¬ (c.type = "image") := by
        intro hx; rw [hx] at h1; exact absurd h1.1 (by decide)
      simp [List.filter_cons, hci, ih]
    · rw [if_neg h1]
      by_cases h2 : c.type = "image" ∧ i < MAX_IMAGE_CLIPS
      · rw [if_pos h2]
        have hsub : MAX_IMAGE_CLIPS - i = (MAX_IMAGE_CLIPS - (i + 1)) + 1 := by omega
        simp [List.filter_cons, h2.1, ih, hsub]
      · rw [if_neg h2]
        rcases Decidable.em (c.type = "image") with hci | hci
        · have hi : ¬ i < MAX_IMAGE_CLIPS := fun hx => h2 ⟨hci, hx⟩
          have hsub : MAX_IMAGE_CLIPS - i = 0 := by omega
          simp [List.filter_cons, hci, ih, hsub]
        · simp [List.filter_cons, hci, ih]

theorem trimHistory_filter_text (l : List Clip) :
    (trimHistory l).filter (fun c => c.type = "text") =
      ((l.filter (fun c => c.type = "text")).take MAX_CLIPS) := by
  simpa using trimHistoryAux_filter_text l 0 0

theorem trimHistory_filter_image (l : List Clip) :
    (trimHistory l).filter (fun c => c.type = "image") =
      ((l.filter (fun c => c.type = "image")).take MAX_IMAGE_CLIPS) := by
  simpa using trimHistoryAux_filter_image l 0 0

/-! Section: Invariant preservation -/

theorem stamp_wf {c : Clip} (now : String) (hc : c.wf) : (stamp now c).wf := hc

theorem sameIdentity_stamp {a b : Clip} (now : String) :
    sameIdentity (stamp now a) b ↔ sameIdentity a b := Iff.rfl

theorem forall_not_sameIdentity_of_dup_false {a : Clip} {l : List Clip}
    (ha : a.wf) (hl : ∀ x ∈ l, x.wf) (h : isDuplicateInList a l = false) :
    ∀ x ∈ l, ¬ sameIdentity a x := by
  intro x hx hid
  have ht : isDuplicateInList a l = true :=
    (isDuplicateInList_iff ha hl).mpr ⟨x, hx, hid⟩
  rw [h] at ht
  cases ht

theorem mem_filter_not_dup {a x : Clip} {l : List Clip}
    (hx : x ∈ l.filter (fun y => ! isDuplicateInList a [y])) :
    x ∈ l ∧ isDup a x = false := by
  rw [List.mem_filter] at hx
  refine ⟨hx.1, ?_⟩
  have h := hx.2
  rw [isDuplicateInList_singleton] at h
  simpa using h

theorem not_sameIdentity_of_isDup_false {a x : Clip} (ha : a.wf) (hx : x.wf)
    (h : isDup a x = false) : ¬ sameIdentity a x := by
  intro hid
  have := (isDup_iff ha hx).mpr hid
  rw [h] at this
  cases this

/-- Trimming the history preserves the store invariant. -/
theorem inv_trim {s : Store} (hinv : Inv s) :
    Inv ⟨trimHistory s.history, s.pinned⟩ := by
  obtain ⟨hcross, hph, hpp⟩ := hinv
  refine ⟨?_, ?_, hpp⟩
  · intro h hh p hp
    exact hcross h (mem_of_mem_trimHistory hh) p hp
  · exact List.Pairwise.sublist (trimHistory_sublist s.history) hph

/-- `add_clip` preserves the store invariant. -/
theorem inv_addClip (now : String) (c : Clip) (s : Store)
    (hwf : WFStore s) (hc : c.wf) (hinv : Inv s) : Inv (addClip now c s) := by
  unfold addClip
  by_cases h0 : c.type = ""
  · rw [if_pos h0]; exact hinv
  · rw [if_neg h0]
    have hcw : (stamp now c).wf := stamp_wf now hc
    by_cases hd : isDuplicateInList (stamp now c) s.pinned = true
    · rw [if_pos hd]; exact hinv
    · rw [if_neg hd]
      have hd' : isDuplicateInList (stamp now c) s.pinned = false :=
        Bool.eq_false_iff.mpr hd
      obtain ⟨hcross, hph, hpp⟩ := hinv
      have hnopin : ∀ p ∈ s.pinned, ¬ sameIdentity (stamp now c) p :=
        forall_not_sameIdentity_of_dup_false hcw hwf.2 hd'
      refine ⟨?_, ?_, hpp⟩
      · intro h hh p hp
        rcases List.mem_cons.mp hh with rfl | hh'
        · exact hnopin p hp
        · exact hcross h (mem_filter_not_dup hh').1 p hp
      · rw [List.pairwise_cons]
        constructor
        · intro x hx
          obtain ⟨hxl, hdx⟩ := mem_filter_not_dup hx
          exact not_sameIdentity_of_isDup_false hcw (hwf.1 x hxl) hdx
        · exact List.Pairwise.sublist (List.filter_sublist s.history) hph

/-- The unpin branch of `pin_menu` preserves the store invariant. -/
theorem inv_unpinClip (c : Clip) (s : Store)
    (hwf : WFStore s) (hc : c.wf) (hinv : Inv s) : Inv (unpinClip c s) := by
  obtain ⟨hcross, hph, hpp⟩ := hinv
  unfold unpinClip
  have hpin_mem : ∀ p ∈ s.pinned.filter (fun p => ! isDuplicateInList c [p]),
      p ∈ s.pinned ∧ isDup c p = false := fun p hp => mem_filter_not_dup hp
  by_cases hd : isDuplicateInList c s.history = true
  · rw [if_pos hd]
    refine ⟨?_, ?_, ?_⟩
    · intro h hh p hp
      exact hcross h (mem_of_mem_trimHistory hh) p (hpin_mem p hp).1
    · exact List.Pairwise.sublist (trimHistory_sublist s.history) hph
    · exact List.Pairwise.sublist (List.filter_sublist s.pinned) hpp
  · rw [if_neg hd]
    have hd' : isDuplicateInList c s.history = false := Bool.eq_false_iff.mpr hd
    have hnoh : ∀ h ∈ s.history, ¬ sameIdentity c h :=
      forall_not_sameIdentity_of_dup_false hc hwf.1 hd'
    refine ⟨?_, ?_, ?_⟩
    · intro h hh p hp
      obtain ⟨hpl, hdp⟩ := hpin_mem p hp
      rcases List.mem_cons.mp (mem_of_mem_trimHistory hh) with rfl | hh'
      · exact not_sameIdentity_of_isDup_false hc (hwf.2 p hpl) hdp
      · exact hcross h hh' p hpl
    · refine List.Pairwise.sublist (trimHistory_sublist _) ?_
      rw [List.pairwise_cons]
      exact ⟨hnoh, hph⟩
    · exact List.Pairwise.sublist (List.filter_sublist s.pinned) hpp

/-- The pin branch of `pin_menu` preserves the store invariant. -/
theorem inv_pinClip (c : Clip) (s : Store)
    (hwf : WFStore s) (hc : c.wf) (hinv : Inv s) : Inv (pinClip c s) := by
  obtain ⟨hcross, hph, hpp⟩ := hinv
  unfold pinClip
  have hhist_mem : ∀ h ∈ s.history.filter (fun h => ! isDuplicateInList c [h]),
      h ∈ s.history ∧ isDup c h = false := fun h hh => mem_filter_not_dup hh
  by_cases hd : isDuplicateInList c s.pinned = true
  · rw [if_pos hd]
    refine ⟨?_, ?_, hpp⟩
    · intro h hh p hp
      exact hcross h (hhist_mem h (mem_of_mem_trimHistory hh)).1 p hp
    · exact List.Pairwise.sublist ((trimHistory_sublist _).trans (List.filter_sublist s.history)) hph
  · rw [if_neg hd]
    have hd' : isDuplicateInList c s.pinned = false := Bool.eq_false_iff.mpr hd
    have hnop : ∀ p ∈ s.pinned, ¬ sameIdentity c p :=
      forall_not_sameIdentity_of_dup_false hc hwf.2 hd'
    refine ⟨?_, ?_, ?_⟩
    · intro h hh p hp
      obtain ⟨hhl, hdh⟩ := hhist_mem h (mem_of_mem_trimHistory hh)
      rcases List.mem_append.mp hp with hp' | hp'
      · exact hcross h hhl p hp'
      · rcases List.mem_singleton.mp hp' with rfl
        intro hid
        exact not_sameIdentity_of_isDup_false hc (hwf.1 h hhl) hdh
          (sameIdentity_symm hid)
    · exact List.Pairwise.sublist ((trimHistory_sublist _).trans (List.filter_sublist s.history)) hph
    · rw [List.pairwise_append]
      refine ⟨hpp, List.pairwise_singleton _ _, ?_⟩
      intro p hp x hx
      rcases List.mem_singleton.mp hx with rfl
      intro hid
      exact hnop p hp (sameIdentity_symm hid)

/-- The pin/unpin action of `pin_menu` preserves the store invariant. -/
theorem inv_togglePin (c : Clip) (s : Store)
    (hwf : WFStore s) (hc : c.wf) (hinv : Inv s) : Inv (togglePin c s) := by
  unfold togglePin
  by_cases hd : isDuplicateInList c s.pinned = true
  · rw [if_pos hd]; exact inv_unpinClip c s hwf hc hinv
  · rw [if_neg hd]; exact inv_pinClip c s hwf hc hinv

theorem isDup_self {c : Clip} (hc : c.wf) : isDup c c = true :=
  (isDup_iff hc hc).mpr (sameIdentity_self hc)

theorem isDuplicateInList_eq_false_of_forall {a : Clip} {l : List Clip}
    (h : ∀ x ∈ l, isDup a x = false) : isDuplicateInList a l = false := by
  rcases hd : isDuplicateInList a l with _ | _
  · rfl
  · obtain ⟨x, hx, hdx⟩ := List.any_eq_true.mp hd
    rw [h x hx] at hdx
    cases hdx

theorem pinClip_history (c : Clip) (s : Store) :
    (pinClip c s).history =
      trimHistory (s.history.filter (fun h => ! isDuplicateInList c [h])) := rfl

theorem pinClip_pinned_of_not_dup {c : Clip} {s : Store}
    (hd : isDuplicateInList c s.pinned = false) :
    (pinClip c s).pinned = s.pinned ++ [c] := by
  simp [pinClip, hd]

theorem unpinClip_pinned (c : Clip) (s : Store) :
    (unpinClip c s).pinned =
      s.pinned.filter (fun p => ! isDuplicateInList c [p]) := rfl

theorem unpinClip_history_of_not_dup {c : Clip} {s : Store}
    (hd : isDuplicateInList c s.history = false) :
    (unpinClip c s).history = trimHistory (c :: s.history) := by
  simp [unpinClip, hd]

theorem togglePin_of_dup {c : Clip} {s : Store}
    (hd : isDuplicateInList c s.pinned = true) : togglePin c s = unpinClip c s := by
  simp [togglePin, hd]

theorem togglePin_of_not_dup {c : Clip} {s : Store}
    (hd : isDuplicateInList c s.pinned = false) : togglePin c s = pinClip c s := by
  simp [togglePin, hd]

instance : ∀ s : Store, Decidable (WFStore s) := fun s => by
  unfold WFStore; exact inferInstance

instance : ∀ s : Store, Decidable (Inv s) := fun s => by
  unfold Inv; exact inferInstance

/-! Section: Claim theorems -/

/-- C1: after each add — as the daemon performs it, `add_clip` followed by
the trim of `save_history_only` — the history holds at most `MAX_CLIPS` text
entries and at most `MAX_IMAGE_CLIPS` image entries; the trim keeps, for each
kind independently, the first (most recent) entries of that kind and drops the
excess from the tail (the oldest ones). -/
theorem history_bounded_after_add (now : String) (c : Clip) (s : Store) :
    ((daemonAdd now c s).history.filter (fun x => x.type = "text")).length ≤
        MAX_CLIPS ∧
    ((daemonAdd now c s).history.filter (fun x => x.type = "image")).length ≤
        MAX_IMAGE_CLIPS ∧
    (daemonAdd now c s).history.filter (fun x => x.type = "text") =
      ((addClip now c s).history.filter (fun x => x.type = "text")).take MAX_CLIPS ∧
    (daemonAdd now c s).history.filter (fun x => x.type = "image") =
      ((addClip now c s).history.filter (fun x => x.type = "image")).take
        MAX_IMAGE_CLIPS := by
  have hh : (daemonAdd now c s).history = trimHistory (addClip now c s).history := rfl
  rw [hh, trimHistory_filter_text, trimHistory_filter_image]
  refine ⟨?_, ?_, rfl, rfl⟩
  · rw [List.length_take]; exact min_le_left _ _
  · rw [List.length_take]; exact min_le_left _ _

/-- C2: every ClipStore operation — `add_clip` (alone and composed with the
daemon's trim), the pin/unpin action of `pin_menu`, and `clear_history` —
preserves the invariant: no identity is in both `history` and `pinned`, and
neither list holds two entries of the same identity.  Clips are assumed
well-formed per the spec's data model (kind is Text or Image; an image clip
carries a non-empty path). -/
theorem clipStore_ops_preserve_invariant (now : String) (s : Store) (c : Clip)
    (hwf : WFStore s) (hc : c.wf) (hinv : Inv s) :
    Inv (addClip now c s) ∧ Inv (daemonAdd now c s) ∧ Inv (togglePin c s) ∧
      Inv (clearHistory s) :=
  ⟨inv_addClip now c s hwf hc hinv,
   inv_trim (inv_addClip now c s hwf hc hinv),
   inv_togglePin c s hwf hc hinv,
   ⟨fun h hh => absurd hh (List.not_mem_nil h), List.Pairwise.nil, hinv.2.2⟩⟩

/-- Witness for C2 at a concrete store and clip. -/
theorem clipStore_ops_preserve_invariant_witness :
    Inv (addClip "t1" ⟨"text", some "a", none, none, ""⟩
          ⟨[⟨"text", some "b", none, none, "t0"⟩],
           [⟨"image", none, some "/tmp/x.png", none, "t0"⟩]⟩) ∧
    Inv (daemonAdd "t1" ⟨"text", some "a", none, none, ""⟩
          ⟨[⟨"text", some "b", none, none, "t0"⟩],
           [⟨"image", none, some "/tmp/x.png", none, "t0"⟩]⟩) ∧
    Inv (togglePin ⟨"text", some "a", none, none, ""⟩
          ⟨[⟨"text", some "b", none, none, "t0"⟩],
           [⟨"image", none, some "/tmp/x.png", none, "t0"⟩]⟩) ∧
    Inv (clearHistory
          ⟨[⟨"text", some "b", none, none, "t0"⟩],
           [⟨"image", none, some "/tmp/x.png", none, "t0"⟩]⟩) :=
  clipStore_ops_preserve_invariant "t1"
    ⟨[⟨"text", some "b", none, none, "t0"⟩],
     [⟨"image", none, some "/tmp/x.png", none, "t0"⟩]⟩
    ⟨"text", some "a", none, none, ""⟩ (by decide) (by decide) (by decide)

/-- C3: `add_clip` of a clip whose identity matches a pinned entry leaves
the store (both `history` and `pinned`) exactly unchanged. -/
theorem addClip_noop_of_pinned_identity (now : String) (s : Store) (c p : Clip)
    (hwf : WFStore s) (hc : c.wf) (hp : p ∈ s.pinned) (hid : sameIdentity c p) :
    addClip now c s = s := by
  unfold addClip
  have h0 : ¬ c.type = "" := by rcases hc.1 with h | h <;> simp [h]
  rw [if_neg h0]
  have hdup : isDuplicateInList (stamp now c) s.pinned = true :=
    (isDuplicateInList_iff (stamp_wf now hc) hwf.2).mpr ⟨p, hp, hid⟩
  rw [if_pos hdup]

/-- Witness for C3 at a concrete store and clip. -/
theorem addClip_noop_of_pinned_identity_witness :
    addClip "t1" ⟨"text", some "a", none, none, ""⟩
        ⟨[⟨"text", some "b", none, none, "t0"⟩],
         [⟨"text", some "a", none, none, "t0"⟩]⟩ =
      ⟨[⟨"text", some "b", none, none, "t0"⟩],
       [⟨"text", some "a", none, none, "t0"⟩]⟩ :=
  addClip_noop_of_pinned_identity "t1"
    ⟨[⟨"text", some "b", none, none, "t0"⟩],
     [⟨"text", some "a", none, none, "t0"⟩]⟩
    ⟨"text", some "a", none, none, ""⟩ ⟨"text", some "a", none, none, "t0"⟩
    (by decide) (by decide) (by decide) (by decide)

/-- C6: from the empty store, `add(Text "a")`, `add(Text "b")`,
`add(Text "a")` produces history `["a", "b"]`: the re-added identity's old
entry is removed and the new clip goes to the front, never yielding two
entries of that identity. -/
theorem addClip_scenario_dedup_to_front :
    (addClip "t3" ⟨"text", some "a", none, none, ""⟩
      (addClip "t2" ⟨"text", some "b", none, none, ""⟩
        (addClip "t1" ⟨"text", some "a", none, none, ""⟩ ⟨[], []⟩))).history =
      [⟨"text", some "a", none, none, "t3"⟩,
       ⟨"text", some "b", none, none, "t2"⟩] := by
  decide

/-- C4 counterexample: the claim asserts that after two toggles the
clip's position in `history` is the front slot, for *every* clip present in
the store.  For the clip `Text "a"` present in `pinned` of the concrete store
`⟨[], [a]⟩`, two toggles (unpin, then re-pin) leave it in `pinned` with
`history` empty, so it has no position in `history` at all. -/
theorem togglePin_twice_pinned_clip_not_front :
    (togglePin ⟨"text", some "a", none, none, "t"⟩
        (togglePin ⟨"text", some "a", none, none, "t"⟩
          ⟨[], [⟨"text", some "a", none, none, "t"⟩]⟩)).history = [] ∧
    (togglePin ⟨"text", some "a", none, none, "t"⟩
        (togglePin ⟨"text", some "a", none, none, "t"⟩
          ⟨[], [⟨"text", some "a", none, none, "t"⟩]⟩)).pinned =
      [⟨"text", some "a", none, none, "t"⟩] := by
  decide

/-- C4 (amended): for every well-formed clip `c` present in the store,
two applications of the pin-menu toggle restore the membership of `c`'s
identity in `history` and in `pinned` to its pre-toggle state; and if `c` was
in `history` before the toggles, afterwards `c` sits at the front
(most-recent slot) of `history`. -/
theorem togglePin_twice_membership (s : Store) (c : Clip)
    (hwf : WFStore s) (hc : c.wf) (hinv : Inv s)
    (hmem : c ∈ s.history ∨ c ∈ s.pinned) :
    (identInHistory c (togglePin c (togglePin c s)) ↔ identInHistory c s) ∧
    (identInPinned c (togglePin c (togglePin c s)) ↔ identInPinned c s) ∧
    (c ∈ s.history → (togglePin c (togglePin c s)).history.head? = some c) := by
  by_cases hch : c ∈ s.history
  case pos =>
    have hnp : ∀ p ∈ s.pinned, ¬ sameIdentity c p := fun p hp => hinv.1 c hch p hp
    have hd1 : isDuplicateInList c s.pinned = false :=
      isDuplicateInList_eq_false hc hwf.2 hnp
    rw [togglePin_of_not_dup hd1]
    have hpin1 : (pinClip c s).pinned = s.pinned ++ [c] :=
      pinClip_pinned_of_not_dup hd1
    have hd2 : isDuplicateInList c (pinClip c s).pinned = true := by
      rw [hpin1]
      exact List.any_eq_true.mpr
        ⟨c, List.mem_append_right _ (List.mem_singleton.mpr rfl), isDup_self hc⟩
    rw [togglePin_of_dup hd2]
    have hh1 : ∀ x ∈ (pinClip c s).history, isDup c x = false := by
      intro x hx
      rw [pinClip_history] at hx
      exact (mem_filter_not_dup (mem_of_mem_trimHistory hx)).2
    have hd3 : isDuplicateInList c (pinClip c s).history = false :=
      isDuplicateInList_eq_false_of_forall hh1
    have hhist2 : (unpinClip c (pinClip c s)).history =
        trimHistory (c :: (pinClip c s).history) :=
      unpinClip_history_of_not_dup hd3
    have hpinned2 : (unpinClip c (pinClip c s)).pinned = s.pinned := by
      rw [unpinClip_pinned, hpin1, List.filter_append]
      have h1 : s.pinned.filter (fun p => ! isDuplicateInList c [p]) = s.pinned := by
        apply List.filter_eq_self.mpr
        intro p hp
        rw [isDuplicateInList_singleton, isDup_eq_false hc (hwf.2 p hp) (hnp p hp)]
        rfl
      have h2 : ([c] : List Clip).filter (fun p => ! isDuplicateInList c [p]) = [] := by
        simp [isDuplicateInList_singleton, isDup_self hc]
      rw [h1, h2, List.append_nil]
    obtain ⟨rest, hrest⟩ := trimHistory_cons_head (pinClip c s).history hc
    refine ⟨?_, ?_, fun _ => ?_⟩
    · apply iff_of_true
      · exact ⟨c, by rw [hhist2, hrest]; exact List.mem_cons_self c rest,
          sameIdentity_self hc⟩
      · exact ⟨c, hch, sameIdentity_self hc⟩
    · unfold identInPinned
      rw [hpinned2]
    · rw [hhist2, hrest]
      rfl
  case neg =>
    have hcp : c ∈ s.pinned := hmem.resolve_left hch
    have hnh : ∀ h ∈ s.history, ¬ sameIdentity c h := by
      intro h hh hid
      exact hinv.1 h hh c hcp (sameIdentity_symm hid)
    have hd1 : isDuplicateInList c s.pinned = true :=
      List.any_eq_true.mpr ⟨c, hcp, isDup_self hc⟩
    rw [togglePin_of_dup hd1]
    have hdh : isDuplicateInList c s.history = false :=
      isDuplicateInList_eq_false hc hwf.1 hnh
    have hhist1 : (unpinClip c s).history = trimHistory (c :: s.history) :=
      unpinClip_history_of_not_dup hdh
    have hp1 : ∀ p ∈ (unpinClip c s).pinned, isDup c p = false := by
      intro p hp
      rw [unpinClip_pinned] at hp
      exact (mem_filter_not_dup hp).2
    have hd2 : isDuplicateInList c (unpinClip c s).pinned = false :=
      isDuplicateInList_eq_false_of_forall hp1
    rw [togglePin_of_not_dup hd2]
    have hpinned2 : (pinClip c (unpinClip c s)).pinned =
        (unpinClip c s).pinned ++ [c] :=
      pinClip_pinned_of_not_dup hd2
    have hwf1 : ∀ x ∈ (unpinClip c s).history, x.wf := by
      intro x hx
      rw [hhist1] at hx
      rcases List.mem_cons.mp (mem_of_mem_trimHistory hx) with rfl | hx'
      · exact hc
      · exact hwf.1 x hx'
    refine ⟨?_, ?_, fun hfalse => absurd hfalse hch⟩
    · apply iff_of_false
      · rintro ⟨x, hx, hid⟩
        rw [pinClip_history] at hx
        have hdx := (mem_filter_not_dup (mem_of_mem_trimHistory hx)).2
        have hxw : x.wf := hwf1 x (mem_filter_not_dup (mem_of_mem_trimHistory hx)).1
        exact not_sameIdentity_of_isDup_false hc hxw hdx hid
      · rintro ⟨x, hx, hid⟩
        exact hnh x hx hid
    · apply iff_of_true
      · exact ⟨c, by
          rw [hpinned2]
          exact List.mem_append_right _ (List.mem_singleton.mpr rfl),
          sameIdentity_self hc⟩
      · exact ⟨c, hcp, sameIdentity_self hc⟩

/-- Witness for the amended C4 at a concrete store and clip. -/
theorem togglePin_twice_membership_witness :
    (identInHistory ⟨"text", some "a", none, none, "t"⟩
        (togglePin ⟨"text", some "a", none, none, "t"⟩
          (togglePin ⟨"text", some "a", none, none, "t"⟩
            ⟨[⟨"text", some "a", none, none, "t"⟩], []⟩)) ↔
      identInHistory ⟨"text", some "a", none, none, "t"⟩
        ⟨[⟨"text", some "a", none, none, "t"⟩], []⟩) ∧
    (identInPinned ⟨"text", some "a", none, none, "t"⟩
        (togglePin ⟨"text", some "a", none, none, "t"⟩
          (togglePin ⟨"text", some "a", none, none, "t"⟩
            ⟨[⟨"text", some "a", none, none, "t"⟩], []⟩)) ↔
      identInPinned ⟨"text", some "a", none, none, "t"⟩
        ⟨[⟨"text", some "a", none, none, "t"⟩], []⟩) ∧
    (⟨"text", some "a", none, none, "t"⟩ ∈
        (⟨[⟨"text", some "a", none, none, "t"⟩], []⟩ : Store).history →
      (togglePin ⟨"text", some "a", none, none, "t"⟩
        (togglePin ⟨"text", some "a", none, none, "t"⟩
          ⟨[⟨"text", some "a", none, none, "t"⟩], []⟩)).history.head? =
        some ⟨"text", some "a", none, none, "t"⟩) :=
  togglePin_twice_membership
    ⟨[⟨"text", some "a", none, none, "t"⟩], []⟩
    ⟨"text", some "a", none, none, "t"⟩
    (by decide) (by decide) (by decide) (Or.inl (by decide))

theorem addClip_pinned (now : String) (c : Clip) (s : Store) :
    (addClip now c s).pinned = s.pinned := by
  unfold addClip
  by_cases h0 : c.type = ""
  · rw [if_pos h0]
  · rw [if_neg h0]
    by_cases hd : isDuplicateInList (stamp now c) s.pinned = true
    · rw [if_pos hd]
    · rw [if_neg hd]

/-- C5 counterexample: the code defines no `MAX_PINNED` and never trims
`pinned`.  Starting with 60 distinct pinned entries (more than any capacity
constant in the module, whose largest is 60 and whose list capacities are 50
and 20), an explicit pin action yields 61 pinned entries and evicts nothing:
the oldest pinned entry (`"0"`, at the head) is still there. -/
theorem pin_does_not_trim_pinned :
    (togglePin ⟨"text", some "new", none, none, "t"⟩
        ⟨[⟨"text", some "new", none, none, "t"⟩],
         (List.range 60).map
           (fun n => ⟨"text", some (Nat.repr n), none, none, "t"⟩)⟩).pinned.length =
      61 ∧
    (togglePin ⟨"text", some "new", none, none, "t"⟩
        ⟨[⟨"text", some "new", none, none, "t"⟩],
         (List.range 60).map
           (fun n => ⟨"text", some (Nat.repr n), none, none, "t"⟩)⟩).pinned.head? =
      some ⟨"text", some "0", none, none, "t"⟩ := by
  decide

/-- C5 (amended): no operation ever drops a pinned item due to capacity —
and in particular an explicit pin action performs *no* trimming of `pinned`
(the code defines no `MAX_PINNED`): it appends the clip, so `pinned` grows
without bound; the only removal from `pinned` is the explicit unpin filter. -/
theorem pinned_never_dropped_by_capacity (now : String) (s : Store) (c : Clip) :
    (addClip now c s).pinned = s.pinned ∧
    (daemonAdd now c s).pinned = s.pinned ∧
    (clearHistory s).pinned = s.pinned ∧
    (isDuplicateInList c s.pinned = false →
      (togglePin c s).pinned = s.pinned ++ [c]) ∧
    (isDuplicateInList c s.pinned = true →
      (togglePin c s).pinned =
        s.pinned.filter (fun p => ! isDuplicateInList c [p])) := by
  refine ⟨addClip_pinned now c s, addClip_pinned now c s, rfl, ?_, ?_⟩
  · intro hd
    rw [togglePin_of_not_dup hd]
    exact pinClip_pinned_of_not_dup hd
  · intro hd
    rw [togglePin_of_dup hd]
    rfl

/-- Witness for the amended C5: pinning appends to `pinned`. -/
theorem pinned_never_dropped_by_capacity_witness :
    (togglePin ⟨"text", some "c", none, none, "t"⟩
        ⟨[], [⟨"text", some "p", none, none, "t"⟩]⟩).pinned =
      [⟨"text", some "p", none, none, "t"⟩] ++
        [⟨"text", some "c", none, none, "t"⟩] :=
  (pinned_never_dropped_by_capacity "t"
      ⟨[], [⟨"text", some "p", none, none, "t"⟩]⟩
      ⟨"text", some "c", none, none, "t"⟩).2.2.2.1 (by decide)

/-- C9: `save_history_only` writes only the history document: for every
store and disk state, the pinned document on disk and the in-memory pinned
list are unchanged; the history document becomes the trimmed history. -/
theorem saveHistoryOnly_preserves_pinned (s : Store) (d : Disk) :
    (saveHistoryOnly s d).2.pinnedDoc = d.pinnedDoc ∧
    (saveHistoryOnly s d).1.pinned = s.pinned ∧
    (saveHistoryOnly s d).2.historyDoc = trimHistory s.history :=
  ⟨rfl, rfl, rfl⟩

/-! Section: Clipboard text reading (`get_clipboard_content`, text fallback) -/

/-- The characters stripped by Python's `str.strip()`: the code points
CPython treats as whitespace (`Py_UNICODE_ISSPACE`) — U+0009–U+000D,
U+001C–U+001F, space, U+0085, U+00A0, U+1680, U+2000–U+200A, U+2028, U+2029,
U+202F, U+205F and U+3000. -/
def isPySpace (ch : Char) : Bool :=
  let n := ch.toNat
  (0x09 ≤ n ∧ n ≤ 0x0d) ∨ (0x1c ≤ n ∧ n ≤ 0x1f) ∨ n = 0x20 ∨ n = 0x85 ∨
    n = 0xa0 ∨ n = 0x1680 ∨ (0x2000 ≤ n ∧ n ≤ 0x200a) ∨ n = 0x2028 ∨
    n = 0x2029 ∨ n = 0x202f ∨ n = 0x205f ∨ n = 0x3000

/-- `text = out.stdout.decode("utf-8").rstrip("\n")`: remove every trailing
newline character. -/
def rstripNewline (s : String) : String :=
  ⟨(s.data.reverse.dropWhile (fun ch => ch = '\n')).reverse⟩

/-- Python `str.strip()`: whitespace removed from both ends. -/
def pyStrip (s : String) : String :=
  ⟨((s.data.dropWhile isPySpace).reverse.dropWhile isPySpace).reverse⟩

/-- The text fallback of `get_clipboard_content` (`clipmgr.py` lines
510–525): with `raw` the decoded stdout of `xclip -o`, strip trailing
newlines; when the result is truthy and its `strip()` is truthy, return a
text clip with that content, else no clip. -/
def getClipboardTextClip (now raw : String) : Option Clip :=
  if rstripNewline raw ≠ "" ∧ pyStrip (rstripNewline raw) ≠ "" then
    some ⟨"text", some (rstripNewline raw), none, none, now⟩
  else none

/-- C10: the clipboard text read never yields an empty or whitespace-only
text clip: if after stripping trailing newlines the remaining text is
whitespace-only, the read returns no clip; and any clip it does produce is a
text clip whose content is non-empty and not all whitespace. -/
theorem clipboard_text_read_no_whitespace_only (now raw : String) :
    (pyStrip (rstripNewline raw) = "" → getClipboardTextClip now raw = none) ∧
    (∀ c : Clip, getClipboardTextClip now raw = some c →
      c.type = "text" ∧
        ∃ t, c.content = some t ∧ t ≠ "" ∧ pyStrip t ≠ "") := by
  constructor
  · intro hws
    unfold getClipboardTextClip
    rw [if_neg]
    intro hcond
    exact hcond.2 hws
  · intro c hcm
    unfold getClipboardTextClip at hcm
    by_cases hcond : rstripNewline raw ≠ "" ∧ pyStrip (rstripNewline raw) ≠ ""
    · rw [if_pos hcond] at hcm
      obtain rfl := Option.some.inj hcm
      exact ⟨rfl, rstripNewline raw, rfl, hcond.1, hcond.2⟩
    · rw [if_neg hcond] at hcm
      cases hcm

/-- Witness for C10: whitespace-only clipboard reads yield no clip, both for
ASCII whitespace and for Unicode whitespace such as the no-break space
U+00A0. -/
theorem clipboard_text_read_no_whitespace_only_witness :
    getClipboardTextClip "t" "  \n" = none ∧
    getClipboardTextClip "t" "\u00A0" = none :=
  ⟨(clipboard_text_read_no_whitespace_only "t" "  \n").1 (by decide),
   (clipboard_text_read_no_whitespace_only "t" "\u00A0").1 (by decide)⟩

/-! Section: Persistence loading (`load_clips_from_file`, `Clip.from_dict`) -/

/-- A decoded JSON value, as produced by `json.load` (numbers restricted to
integers; the persisted documents only carry strings, nulls and objects, and
no claim depends on float rendering). -/
inductive Json where
  | null : Json
  | bool (b : Bool) : Json
  | num (n : Int) : Json
  | str (s : String) : Json
  | arr (items : List Json) : Json
  | obj (fields : List (String × Json)) : Json

mutual

/-- Python `repr()` of a decoded JSON value. -/
def Json.pyRepr : Json → String
  | .null => "None"
  | .bool true => "True"
  | .bool false => "False"
  | .num n => toString n
  | .str s => "\x27" ++ s ++ "\x27"
  | .arr items => "[" ++ String.intercalate ", " (Json.pyReprList items) ++ "]"
  | .obj fields =>
    "\x7b" ++ String.intercalate ", " (Json.pyReprFields fields) ++ "\x7d"

/-- `repr()` of each element of a list. -/
def Json.pyReprList : List Json → List String
  | [] => []
  | j :: rest => Json.pyRepr j :: Json.pyReprList rest

/-- `repr()` of each key/value pair of a dict. -/
def Json.pyReprFields : List (String × Json) → List String
  | [] => []
  | (k, v) :: rest =>
    ("\x27" ++ k ++ "\x27: " ++ Json.pyRepr v) :: Json.pyReprFields rest

end

/-- Python `str()` of a decoded JSON value: the string itself for strings,
and (for `None`, booleans, numbers, lists and dicts) the same as `repr()`. -/
def Json.pyStr : Json → String
  | .str s => s
  | j => j.pyRepr

/-- First-match key lookup in a decoded JSON object (Python dict keys are
unique, so first-match agrees with dict access). -/
def lookupField (fields : List (String × Json)) (key : String) : Option Json :=
  (fields.find? (fun f => f.1 = key)).map (fun f => f.2)

/-- `data.get(key)` for the string-valued clip fields: an absent key or a
JSON `null` is Python `None` (here `none`); a JSON string is itself.  A
non-string, non-null value is kept by Python as-is but is only observed
through equality and truthiness; it is modelled by its `str()` rendering. -/
def getStrField (fields : List (String × Json)) (key : String) : Option String :=
  match lookupField fields key with
  | none => none
  | some .null => none
  | some (.str s) => some s
  | some v => some v.pyStr

/-- `data.get("type", "text")` as observed through `== "text"`, `== "image"`
and truthiness: an absent key gives the default `"text"`; JSON `null` is
Python `None`, encoded as the (equally falsy) `""`; the other falsy values
(`false`, `0`, `[]`, the empty dict) are also encoded `""`; any other
non-string value is modelled by its (truthy) `str()` rendering. -/
def getTypeField (fields : List (String × Json)) : String :=
  match lookupField fields "type" with
  | none => "text"
  | some .null => ""
  | some (.str s) => s
  | some (.bool false) => ""
  | some (.num 0) => ""
  | some (.arr []) => ""
  | some (.obj []) => ""
  | some v => v.pyStr

/-- Python `a or b` on an optional string (`None` and `""` are falsy). -/
def pyOrStr (a b : Option String) : Option String :=
  match a with
  | none => b
  | some s => if s = "" then b else some s

/-- `Clip.from_dict`: tolerant construction from one decoded JSON item.  A
non-dict item (the legacy encoding) becomes a text clip whose content is
`str(data)`; `fmt` falls back from `"format"` to `"fmt"`, and a missing or
falsy timestamp is replaced by the current time. -/
def Clip.fromDict (now : String) : Json → Clip
  | .obj fields =>
    { type := getTypeField fields
      content := getStrField fields "content"
      path := getStrField fields "path"
      fmt := pyOrStr (getStrField fields "format") (getStrField fields "fmt")
      timestamp := (pyOrStr (getStrField fields "timestamp") (some now)).getD now }
  | j =>
    { type := "text", content := some j.pyStr, path := none, fmt := none,
      timestamp := now }

/-- The outcome of opening and JSON-decoding a persistence file: absent,
unreadable or malformed (`OSError` / `JSONDecodeError`), or parsed. -/
inductive FileRead where
  | absent : FileRead
  | malformed : FileRead
  | parsed (doc : Json) : FileRead

/-- `load_clips_from_file`: empty on an absent file, empty on a parse error,
empty when the document is not a list, otherwise `Clip.from_dict` of every
item (the per-item `try/except` never fires: `from_dict` is total on decoded
JSON values). -/
def loadClipsFromFile (now : String) : FileRead → List Clip
  | .absent => []
  | .malformed => []
  | .parsed (.arr items) => items.map (Clip.fromDict now)
  | .parsed _ => []

/-- Whether a decoded JSON document is a list. -/
def Json.isArr : Json → Bool
  | .arr _ => true
  | _ => false

/-- C7: loading is tolerant: an absent file and malformed JSON yield the
empty collection (not an error); a document of unexpected shape (not a list)
also yields the empty collection; and legacy bare-string entries are accepted
and upgraded to text clips with that string as content. -/
theorem load_tolerant_and_legacy (now : String) (j : Json) (s : String)
    (items : List Json) :
    loadClipsFromFile now .absent = [] ∧
    loadClipsFromFile now .malformed = [] ∧
    (j.isArr = false → loadClipsFromFile now (.parsed j) = []) ∧
    loadClipsFromFile now (.parsed (.arr items)) =
      items.map (Clip.fromDict now) ∧
    Clip.fromDict now (.str s) = ⟨"text", some s, none, none, now⟩ := by
  refine ⟨rfl, rfl, ?_, rfl, rfl⟩
  intro hj
  cases j <;> first | rfl | simp [Json.isArr] at hj

/-- Witness for C7: a non-list document and a legacy bare-string entry. -/
theorem load_tolerant_and_legacy_witness :
    loadClipsFromFile "t" (.parsed (.obj [])) = [] ∧
    loadClipsFromFile "t" (.parsed (.arr [.str "hello"])) =
      [⟨"text", some "hello", none, none, "t"⟩] :=
  ⟨(load_tolerant_and_legacy "t" (.obj []) "hello" [.str "hello"]).2.2.1 rfl,
   (load_tolerant_and_legacy "t" (.obj []) "hello" [.str "hello"]).2.2.2.1.trans
     (by rw [List.map_cons, List.map_nil,
       (load_tolerant_and_legacy "t" (.obj []) "hello" []).2.2.2.2])⟩

/-! Section: Menu construction and selection (`build_menu_entries`, `select_clip`,
`pin_menu`)

The string manipulations below are written over `List Char` (structural
recursion) so that every definition evaluates; each models the Python
expression named in its doc comment. -/

/-- `PREVIEW_MAX = 60` from `clipmgr.py`: preview truncation length. -/
def PREVIEW_MAX : Nat := 60

/-- Split a character list on a separator character (the char-level core of
Python's `str.split("/")`, which keeps empty fields). -/
def splitOnCharAux (sep : Char) : List Char → List Char → List (List Char)
  | [], acc => [acc.reverse]
  | ch :: rest, acc =>
    if ch = sep then acc.reverse :: splitOnCharAux sep rest []
    else splitOnCharAux sep rest (ch :: acc)

/-- `Path(p).name`: the last non-empty slash-separated component of the path
(`""` when there is none, e.g. for `"/"` or `""`). -/
def pathName (p : String) : String :=
  ⟨((((splitOnCharAux '/' p.data []).filter (fun c => c ≠ [])).getLast?).getD [])⟩

/-- `Path(p).suffix`: the extension of the final component — the part from
the last dot when that dot is neither leading nor trailing — else `""`. -/
def pathSuffix (p : String) : String :=
  let nm := (pathName p).data
  match nm.reverse.findIdx? (fun ch => ch = '.') with
  | none => ""
  | some k =>
    let i := nm.length - 1 - k
    if 0 < i ∧ i < nm.length - 1 then ⟨nm.drop i⟩ else ""

/-- `get_image_type_str`: `Path(path).suffix.lower().lstrip(".")` in upper
case, or `"IMAGE"` when the extension is empty. -/
def getImageTypeStr (path : String) : String :=
  let ext : List Char :=
    ((pathSuffix path).data.map Char.toLower).dropWhile (fun ch => ch = '.')
  if ext = [] then "IMAGE" else ⟨ext.map Char.toUpper⟩

/-- `datetime.fromisoformat(ts)` followed by `strftime("%m/%d %H:%M")`,
modelled for canonical ISO timestamps `YYYY-MM-DD[T ]HH:MM…` (and plain
dates `YYYY-MM-DD`, whose time renders `00:00`); any other string is treated
as raising `ValueError` (`none`). -/
def formatClipTimestamp (ts : String) : Option String :=
  let cs := ts.data
  let d := fun i => cs.getD i ' '
  let digitsAt := fun (l : List Nat) => l.all (fun i => (d i).isDigit)
  if digitsAt [0, 1, 2, 3] ∧ d 4 = '-' ∧ digitsAt [5, 6] ∧ d 7 = '-' ∧
      digitsAt [8, 9] then
    if cs.length = 10 then
      some ⟨[d 5, d 6, '/', d 8, d 9, ' ', '0', '0', ':', '0', '0']⟩
    else if 16 ≤ cs.length ∧ (d 10 = 'T' ∨ d 10 = ' ') ∧ digitsAt [11, 12] ∧
        d 13 = ':' ∧ digitsAt [14, 15] then
      some ⟨[d 5, d 6, '/', d 8, d 9, ' ', d 11, d 12, ':', d 14, d 15]⟩
    else none
  else none

/-- `get_preview`: one-line preview for dmenu.  Text: newlines become spaces
(`text.replace("\n", " ")`, a single-character replacement) and text longer
than `PREVIEW_MAX` is truncated with an ellipsis.  Image: the file name, with
the formatted timestamp appended when it parses.  Other types: `""`. -/
def getPreview (clip : Clip) : String :=
  if clip.type = "text" then
    let text : List Char :=
      (clip.content.getD "").data.map (fun ch => if ch = '\n' then ' ' else ch)
    if PREVIEW_MAX < text.length then ⟨text.take PREVIEW_MAX⟩ ++ "…"
    else ⟨text⟩
  else if clip.type = "image" then
    let filename :=
      if truthy clip.path then pathName (clip.path.getD "") else "image"
    match formatClipTimestamp clip.timestamp with
    | some t => filename ++ " (" ++ t ++ ")"
    | none => filename
  else ""

/-- The label text after the `"[P3] "` prefix, shared by `build_menu_entries`
and `pin_menu`: `TYPE:path` for an image with a truthy path, the preview
otherwise. -/
def entryLabelBody (c : Clip) : String :=
  if c.type = "image" ∧ truthy c.path then
    getImageTypeStr (c.path.getD "") ++ ":" ++ (c.path.getD "")
  else getPreview c

/-- One menu label: `f"[P{i}] {body}"` (resp. `[H{i}]`), with `tag` the
section letter. -/
def mkLabel (tag : String) (i : Nat) (body : String) : String :=
  "[" ++ tag ++ Nat.repr i ++ "] " ++ body

/-- The `(label, clip)` pairs of one menu section, numbered from `start`
(`enumerate(..., start=1)` in the source). -/
def labelEntriesAux (tag : String) : Nat → List Clip → List (String × Clip)
  | _, [] => []
  | i, c :: rest =>
    (mkLabel tag i (entryLabelBody c), c) :: labelEntriesAux tag (i + 1) rest

/-- `build_menu_entries`: pinned entries first (tag `P`), then history
(tag `H`), each section numbered from 1.  `pin_menu` builds the same
`(label, clip)` list (its display-only separator lines never enter
`entries`). -/
def buildMenuEntries (s : Store) : List (String × Clip) :=
  labelEntriesAux "P" 1 s.pinned ++ labelEntriesAux "H" 1 s.history

/-- The resolution loop of `select_clip` and `pin_menu` (`for label, clip in
entries: if label == sel: … return`): the first entry whose label equals the
selected line. -/
def resolveSelection (entries : List (String × Clip)) (sel : String) :
    Option (String × Clip) :=
  entries.find? (fun e => e.1 = sel)

/-! Section: Decimal digits of `Nat.repr`

The labels embed `str(i)`; to show labels at distinct positions differ we
need that `Nat.repr` produces digit characters only and is injective. -/

/-- The decimal digit characters of `n`, most significant first: the
mathematical specification of `Nat.repr`. -/
def decDigits (n : Nat) : List Char :=
  if _h : n < 10 then [Nat.digitChar n]
  else decDigits (n / 10) ++ [Nat.digitChar (n % 10)]
termination_by n
decreasing_by
  exact Nat.div_lt_self (by omega) (by decide)

theorem digitChar_isDigit {m : Nat} (_h : m < 10) :
    (Nat.digitChar m).isDigit = true := by
  interval_cases m <;> decide

theorem digitChar_toNat_sub {m : Nat} (h : m < 10) :
    (Nat.digitChar m).toNat - 48 = m := by
  interval_cases m <;> decide

theorem toDigitsCore_eq_decDigits :
    ∀ (fuel n : Nat) (acc : List Char), n < fuel →
      Nat.toDigitsCore 10 fuel n acc = decDigits n ++ acc := by
  intro fuel
  induction fuel with
  | zero => intro n acc h; omega
  | succ fuel ih =>
    intro n acc h
    show (if n / 10 = 0 then Nat.digitChar (n % 10) :: acc
      else Nat.toDigitsCore 10 fuel (n / 10) (Nat.digitChar (n % 10) :: acc)) =
      decDigits n ++ acc
    by_cases h10 : n / 10 = 0
    · rw [if_pos h10]
      have hn : n < 10 := by omega
      rw [decDigits, dif_pos hn, Nat.mod_eq_of_lt hn]
      rfl
    · rw [if_neg h10]
      have hge : 10 ≤ n := by omega
      have hlt : n / 10 < fuel := by omega
      have hdd : decDigits n = decDigits (n / 10) ++ [Nat.digitChar (n % 10)] := by
        conv_lhs => rw [decDigits]
        rw [dif_neg (by omega)]
      rw [ih (n / 10) (Nat.digitChar (n % 10) :: acc) hlt, hdd]
      simp

theorem repr_data_eq_decDigits (n : Nat) : (Nat.repr n).data = decDigits n := by
  show (Nat.toDigits 10 n).asString.data = decDigits n
  rw [Nat.toDigits, toDigitsCore_eq_decDigits (n + 1) n [] (Nat.lt_succ_self n),
    List.append_nil]
  rfl

theorem decDigits_all_digit (n : Nat) :
    ∀ ch ∈ decDigits n, ch.isDigit = true := by
  induction n using Nat.strong_induction_on with
  | _ n ih =>
    rw [decDigits]
    by_cases h : n < 10
    · rw [dif_pos h]
      intro ch hch
      rcases List.mem_singleton.mp hch with rfl
      exact digitChar_isDigit h
    · rw [dif_neg h]
      intro ch hch
      rcases List.mem_append.mp hch with hch | hch
      · exact ih (n / 10) (Nat.div_lt_self (by omega) (by decide)) ch hch
      · rcases List.mem_singleton.mp hch with rfl
        exact digitChar_isDigit (by omega)

/-- The decimal value read back from a digit list. -/
def decValue (l : List Char) : Nat :=
  l.foldl (fun a ch => 10 * a + (ch.toNat - 48)) 0

theorem decValue_decDigits (n : Nat) : decValue (decDigits n) = n := by
  induction n using Nat.strong_induction_on with
  | _ n ih =>
    rw [decDigits]
    by_cases h : n < 10
    · rw [dif_pos h]
      show 10 * 0 + ((Nat.digitChar n).toNat - 48) = n
      have := digitChar_toNat_sub h
      omega
    · rw [dif_neg h]
      unfold decValue
      rw [List.foldl_append]
      show 10 * decValue (decDigits (n / 10)) +
        ((Nat.digitChar (n % 10)).toNat - 48) = n
      rw [ih (n / 10) (Nat.div_lt_self (by omega) (by decide))]
      have := digitChar_toNat_sub (m := n % 10) (by omega)
      omega

theorem repr_injective {m n : Nat} (h : Nat.repr m = Nat.repr n) : m = n := by
  have hd : decDigits m = decDigits n := by
    rw [← repr_data_eq_decDigits, ← repr_data_eq_decDigits, h]
  calc m = decValue (decDigits m) := (decValue_decDigits m).symm
    _ = decValue (decDigits n) := by rw [hd]
    _ = n := decValue_decDigits n

theorem repr_data_all_digit (n : Nat) :
    ∀ ch ∈ (Nat.repr n).data, ch.isDigit = true := by
  rw [repr_data_eq_decDigits]
  exact decDigits_all_digit n

/-! Section: Distinctness of menu labels and positional resolution -/

/-- Two equal character lists that each open with a run of digit characters
closed by `']'` agree on the digit run and on the remainder. -/
theorem digits_append_inj :
    ∀ (d₁ d₂ r₁ r₂ : List Char), (∀ ch ∈ d₁, ch.isDigit = true) →
      (∀ ch ∈ d₂, ch.isDigit = true) →
      d₁ ++ ']' :: r₁ = d₂ ++ ']' :: r₂ → d₁ = d₂ ∧ r₁ = r₂ := by
  intro d₁
  induction d₁ with
  | nil =>
    intro d₂ r₁ r₂ _ h₂ heq
    cases d₂ with
    | nil => simpa using heq
    | cons c t =>
      exfalso
      simp only [List.nil_append, List.cons_append, List.cons.injEq] at heq
      have := h₂ c (List.mem_cons_self c t)
      rw [← heq.1] at this
      exact absurd this (by decide)
  | cons c₁ t₁ ih =>
    intro d₂ r₁ r₂ h₁ h₂ heq
    cases d₂ with
    | nil =>
      exfalso
      simp only [List.nil_append, List.cons_append, List.cons.injEq] at heq
      have := h₁ c₁ (List.mem_cons_self c₁ t₁)
      rw [heq.1] at this
      exact absurd this (by decide)
    | cons c₂ t₂ =>
      simp only [List.cons_append, List.cons.injEq] at heq
      obtain ⟨ht, hr⟩ := ih t₂ r₁ r₂
        (fun ch hch => h₁ ch (List.mem_cons_of_mem _ hch))
        (fun ch hch => h₂ ch (List.mem_cons_of_mem _ hch)) heq.2
      exact ⟨by rw [heq.1, ht], hr⟩

/-- Labels determine the section letter and the 1-based index: equality of
two labels whose tags are single characters forces equal tags and indices. -/
theorem mkLabel_inj {tag₁ tag₂ : String} {g₁ g₂ : Char} {i j : Nat}
    {b₁ b₂ : String} (ht₁ : tag₁.data = [g₁]) (ht₂ : tag₂.data = [g₂])
    (h : mkLabel tag₁ i b₁ = mkLabel tag₂ j b₂) : g₁ = g₂ ∧ i = j := by
  unfold mkLabel at h
  have hd := congrArg String.data h
  have e1 : ("[" : String).data = ['['] := rfl
  have e2 : ("] " : String).data = [']', ' '] := rfl
  simp only [String.data_append, e1, e2, ht₁, ht₂, List.append_assoc,
    List.cons_append, List.nil_append, List.cons.injEq, true_and] at hd
  obtain ⟨hg, hrest⟩ := hd
  refine ⟨hg, ?_⟩
  obtain ⟨hdg, _⟩ := digits_append_inj (Nat.repr i).data (Nat.repr j).data _ _
    (repr_data_all_digit i) (repr_data_all_digit j) hrest
  exact repr_injective (String.ext hdg)

/-- Every label of a section built from `start` has the section's tag and an
index at least `start`. -/
theorem labelEntriesAux_label_shape {tag : String} :
    ∀ (clips : List Clip) (start : Nat) (e : String × Clip),
      e ∈ labelEntriesAux tag start clips →
      ∃ k b, start ≤ k ∧ e.1 = mkLabel tag k b := by
  intro clips
  induction clips with
  | nil => intro start e he; cases he
  | cons c rest ih =>
    intro start e he
    rcases List.mem_cons.mp he with rfl | he'
    · exact ⟨start, entryLabelBody c, Nat.le_refl start, rfl⟩
    · obtain ⟨k, b, hk, hb⟩ := ih (start + 1) e he'
      exact ⟨k, b, by omega, hb⟩

/-- Within one menu section the labels are pairwise distinct (the embedded
indices differ). -/
theorem labelEntriesAux_pairwise {tag : String} {g : Char}
    (ht : tag.data = [g]) :
    ∀ (clips : List Clip) (start : Nat),
      (labelEntriesAux tag start clips).Pairwise
        (fun e₁ e₂ => e₁.1 ≠ e₂.1) := by
  intro clips
  induction clips with
  | nil => intro start; exact List.Pairwise.nil
  | cons c rest ih =>
    intro start
    rw [labelEntriesAux, List.pairwise_cons]
    constructor
    · intro e he heq
      obtain ⟨k, b, hk, hb⟩ := labelEntriesAux_label_shape rest (start + 1) e he
      rw [hb] at heq
      have := (mkLabel_inj ht ht heq).2
      omega
    · exact ih (start + 1)

/-- All labels of the menu are pairwise distinct: within a section the
indices differ, and across sections the tags `P` and `H` differ. -/
theorem buildMenuEntries_pairwise (s : Store) :
    (buildMenuEntries s).Pairwise (fun e₁ e₂ => e₁.1 ≠ e₂.1) := by
  unfold buildMenuEntries
  rw [List.pairwise_append]
  refine ⟨labelEntriesAux_pairwise rfl s.pinned 1,
    labelEntriesAux_pairwise rfl s.history 1, ?_⟩
  intro e₁ h₁ e₂ h₂
  obtain ⟨k, b, _, hb⟩ := labelEntriesAux_label_shape s.pinned 1 e₁ h₁
  obtain ⟨k', b', _, hb'⟩ := labelEntriesAux_label_shape s.history 1 e₂ h₂
  rw [hb, hb']
  intro heq
  have hg : ('P' : Char) = 'H' := (mkLabel_inj rfl rfl heq).1
  exact absurd hg (by decide)

/-- First-match lookup by label over a list with pairwise-distinct labels
returns exactly the entry at the queried position. -/
theorem find_label_get :
    ∀ (l : List (String × Clip)),
      l.Pairwise (fun e₁ e₂ => e₁.1 ≠ e₂.1) →
      ∀ (k : Nat) (h : k < l.length),
        l.find? (fun e => e.1 = (l.get ⟨k, h⟩).1) = some (l.get ⟨k, h⟩) := by
  intro l
  induction l with
  | nil => intro _ k h; exact absurd h (by simp)
  | cons e rest ih =>
    intro hpw k h
    cases k with
    | zero =>
      apply List.find?_cons_of_pos
      simp
    | succ k' =>
      have hk' : k' < rest.length := by simpa using h
      have hget : (e :: rest).get ⟨k' + 1, h⟩ = rest.get ⟨k', hk'⟩ := rfl
      rw [hget]
      have hne : e.1 ≠ (rest.get ⟨k', hk'⟩).1 :=
        (List.pairwise_cons.mp hpw).1 _ (rest.get_mem k' hk')
      rw [List.find?_cons_of_neg _ (by simpa using hne)]
      exact ih (List.pairwise_cons.mp hpw).2 k' hk'

/-- C8: label-to-clip resolution in `select_clip` and `pin_menu` — a
first-match scan of the exact `(label, clip)` list passed to the front-end —
returns the entry at the selected position, for every store and position:
the `[P{i}]`/`[H{i}]` prefixes make full labels pairwise distinct even when
two clips render identical preview bodies. -/
theorem menu_selection_resolves_selected_position (s : Store) (k : Nat)
    (h : k < (buildMenuEntries s).length) :
    resolveSelection (buildMenuEntries s)
        (((buildMenuEntries s).get ⟨k, h⟩).1) =
      some ((buildMenuEntries s).get ⟨k, h⟩) :=
  find_label_get (buildMenuEntries s) (buildMenuEntries_pairwise s) k h

/-- Witness for C8: a store whose two history clips render identical preview
bodies; selecting the label of the second entry resolves to the second
entry. -/
theorem menu_selection_resolves_selected_position_witness :
    resolveSelection
        (buildMenuEntries ⟨[⟨"text", some "x", none, none, "t"⟩,
          ⟨"text", some "x", none, none, "t"⟩], []⟩)
        (((buildMenuEntries ⟨[⟨"text", some "x", none, none, "t"⟩,
          ⟨"text", some "x", none, none, "t"⟩], []⟩).get ⟨1, by decide⟩).1) =
      some ((buildMenuEntries ⟨[⟨"text", some "x", none, none, "t"⟩,
        ⟨"text", some "x", none, none, "t"⟩], []⟩).get ⟨1, by decide⟩) :=
  menu_selection_resolves_selected_position
    ⟨[⟨"text", some "x", none, none, "t"⟩,
      ⟨"text", some "x", none, none, "t"⟩], []⟩ 1 (by decide)

end ClipMgr
